import Mathlib

/-!
Verification of the PPO training loop in
`src/acc_verifai/metadrive/multiprocessing_ppo.py`.

The Python floating-point scalars are modelled as exact rationals (`ℚ`)
for the purely ring-arithmetic parts (GAE, episode statistics, the heap
model of `compute_gae`), and as real numbers (`ℝ`) where transcendental
functions appear (tanh / log / exp / sqrt in the squashed-Gaussian
log-probability and the advantage normalization).  NumPy arrays and
Python lists are modelled as Lean lists.
-/

namespace PPO

/-! ### GAE engine (`compute_gae`, multiprocessing_ppo.py lines 189-211)

`np.append(values[1:], last_value if not last_done else 0.0)` becomes
`values.tail ++ [...]`; `1.0 - dones` on a boolean array becomes a map
sending `true` to `0` and `false` to `1`; the element-wise expression
`rewards + gamma * next_values * next_non_terminal - values` becomes a
`zipWith` over the zipped arrays; the backward in-place loop carrying
`last_gae_lam` (initialised to `0`) becomes a structural recursion in
which the head advantage is `delta + gamma * lam * nnt * A_next`, with
`A_next` the head of the advantages of the tail (`0` when the tail is
empty, matching the initial `last_gae_lam = 0`). -/

def nextValuesL (values : List ℚ) (last_value : ℚ) (last_done : Bool) : List ℚ :=
  values.tail ++ [if last_done then 0 else last_value]

def nonTerminalL (dones : List Bool) : List ℚ :=
  dones.map (fun d => 1 - (if d then 1 else 0))

def deltasL (gamma : ℚ) (rewards values nextVals nnt : List ℚ) : List ℚ :=
  List.zipWith (fun rv nn => rv.1 + gamma * nn.1 * nn.2 - rv.2)
    (rewards.zip values) (nextVals.zip nnt)

def gaeAdvList (gamma lam : ℚ) : List (ℚ × ℚ) → List ℚ
  | [] => []
  | dn :: rest =>
      let tailAdv := gaeAdvList gamma lam rest
      (dn.1 + gamma * lam * dn.2 * tailAdv.headD 0) :: tailAdv

def compute_gae (rewards values : List ℚ) (dones : List Bool)
    (last_value : ℚ) (last_done : Bool) (gamma gae_lambda : ℚ) :
    List ℚ × List ℚ :=
  let nextVals := nextValuesL values last_value last_done
  let nnt := nonTerminalL dones
  let deltas := deltasL gamma rewards values nextVals nnt
  let advantages := gaeAdvList gamma gae_lambda (deltas.zip nnt)
  let returns := List.zipWith (· + ·) advantages values
  (advantages, returns)

/-- Spec-side bootstrap value, written from the claim text:
`next_values[t] = values[t+1]` for `t < T-1`, and
`next_values[T-1] = last_value if not last_done else 0`. -/
def gaeSpecNextValue (values : List ℚ) (last_value : ℚ) (last_done : Bool)
    (T t : ℕ) : ℚ :=
  if t < T - 1 then values.getD (t + 1) 0
  else if last_done then 0 else last_value

/-- Spec-side TD error, written from the claim text:
`delta[t] = rewards[t] + gamma * next_values[t] * (1 - dones[t]) - values[t]`. -/
def gaeSpecDelta (rewards values : List ℚ) (dones : List Bool)
    (last_value : ℚ) (last_done : Bool) (gamma : ℚ) (T t : ℕ) : ℚ :=
  rewards.getD t 0
    + gamma * gaeSpecNextValue values last_value last_done T t
        * (1 - (if dones.getD t false then 1 else 0))
    - values.getD t 0

/-! ### Rollout worker collection loop (`worker_fn`, lines 129-183)

The worker's while-loop is modelled as a structural recursion on the
remaining step budget, parametrised by the policy (action, log-prob and
value as a function of the observation) and by an abstract environment:
a state type `S` with a `step` function returning the next observation,
reward, done flag and next state, and a `reset` function.  When the step
reports done, the environment is reset in place and collection continues
within the same trajectory, exactly as in the source loop. -/

structure Transition (Obs A : Type) where
  obs : Obs
  action : A
  logProb : ℚ
  reward : ℚ
  done : Bool
  value : ℚ

def collectLoop {S Obs A : Type} (policy : Obs → A × ℚ × ℚ)
    (stepE : S → A → Obs × ℚ × Bool × S) (resetE : S → Obs × S) :
    ℕ → Obs → S → List (Transition Obs A)
  | 0, _, _ => []
  | n + 1, obs, s =>
      let (a, lp, v) := policy obs
      let (obs', r, d, s') := stepE s a
      let (obsNext, sNext) := if d then resetE s' else (obs', s')
      ⟨obs, a, lp, r, d, v⟩ :: collectLoop policy stepE resetE n obsNext sNext

/-- A worker's trajectory: reset once, then collect `steps_per_worker`
transitions (lines 136-165). -/
def workerTrajectory {S Obs A : Type} (policy : Obs → A × ℚ × ℚ)
    (stepE : S → A → Obs × ℚ × Bool × S) (resetE : S → Obs × S)
    (steps_per_worker : ℕ) (s0 : S) : List (Transition Obs A) :=
  let (obs, s) := resetE s0
  collectLoop policy stepE resetE steps_per_worker obs s

/-- The concatenated batch assembled by `main` (lines 360-398): one
trajectory per worker, each collected with that worker's own environment
state, joined into a single list. -/
def mainBatch {S Obs A : Type} (policy : Obs → A × ℚ × ℚ)
    (stepE : S → A → Obs × ℚ × Bool × S) (resetE : S → Obs × S)
    (num_workers steps_per_worker : ℕ) (init : ℕ → S) :
    List (Transition Obs A) :=
  ((List.range num_workers).map
    (fun i => workerTrajectory policy stepE resetE steps_per_worker (init i))).flatten

/-! ### Minibatch slicing in `ppo_update` (lines 235-245)

The loop `for start in range(0, batch_size, minibatch_size):
minibatch_indices = indices[start:end]` slices the permuted index array
into consecutive pieces of `minibatch_size`, the final piece possibly
shorter.  It is modelled by `chunk`, which repeatedly takes `m` elements
and recurses on the rest.  The array produced by `rng.permutation` is
modelled as any list that is a permutation of `range batch_size` (the
randomness itself is not modelled). -/

def chunk {α : Type} (m : ℕ) : List α → List (List α)
  | [] => []
  | x :: xs =>
      if _h : m = 0 then []
      else (x :: xs).take m :: chunk m ((x :: xs).drop m)
termination_by l => l.length
decreasing_by
  simp only [List.length_drop, List.length_cons]
  omega

/-! ### Worker seeding (`main` line 348, `worker_fn` lines 122-123)

`main` passes every worker of iteration `update` the same seed argument
`args.seed + update * args.num_workers` (the loop index `i` does not
occur in the expression); the worker then derives its environment seed
as `seed + worker_id`. -/

def workerSeedArg (seed update num_workers _worker_index : ℕ) : ℕ :=
  seed + update * num_workers

def workerEnvSeed (seed worker_id : ℕ) : ℕ :=
  seed + worker_id

/-! ### Start-method configuration (`main` lines 287-289)

`mp.set_start_method("spawn")` raises `RuntimeError` when a start method
is already configured; `contextlib.suppress(RuntimeError)` swallows that
error.  The interpreter state relevant here is just the currently
configured start method. -/

inductive MpError where
  | runtimeError
deriving DecidableEq

def set_start_method (current : Option String) (method : String) :
    Except MpError (Option String) :=
  match current with
  | some _ => .error .runtimeError
  | none => .ok (some method)

/-- The semantics of a `contextlib.suppress(RuntimeError)` block: run the
action; on `RuntimeError` keep the prior state and fall through. -/
def suppressRuntimeError {α : Type} (st : α) (act : α → Except MpError α) : α :=
  match act st with
  | .ok s => s
  | .error .runtimeError => st

structure TrainInit where
  startMethod : Option String
  rngSeed : ℕ
deriving DecidableEq

/-- The prologue of `main` after the suppress block: whatever the
start-method call did, execution continues into seeding (lines 291-295);
the prologue itself never propagates an error. -/
def mainPrologue (current : Option String) (seed : ℕ) : Except MpError TrainInit :=
  let mp := suppressRuntimeError current (fun st => set_start_method st "spawn")
  .ok ⟨mp, seed⟩

/-! ### Episode-statistics scan (`main` lines 382-392)

For each received trajectory, the orchestrator re-initialises
`current_episode_reward = 0` and `current_episode_length = 0`, then folds
over the trajectory's (reward, done) pairs, recording an episode and
zeroing both accumulators at each done flag. -/

def episodeScanAux (rAcc : ℚ) (lAcc : ℕ) : List (ℚ × Bool) → List (ℚ × ℕ)
  | [] => []
  | (r, d) :: rest =>
      if d then (rAcc + r, lAcc + 1) :: episodeScanAux 0 0 rest
      else episodeScanAux (rAcc + r) (lAcc + 1) rest

def episodeStats (traj : List (ℚ × Bool)) : List (ℚ × ℕ) :=
  episodeScanAux 0 0 traj

def mainEpisodeStats (trajs : List (List (ℚ × Bool))) : List (ℚ × ℕ) :=
  (trajs.map episodeStats).flatten

/-- Spec-side segmentation of a trajectory at its done flags: each
segment ends at a done flag; a trailing run with no done flag yields no
segment. -/
def specDoneSegmentsAux (acc : List (ℚ × Bool)) :
    List (ℚ × Bool) → List (List (ℚ × Bool))
  | [] => []
  | (r, d) :: rest =>
      if d then (acc ++ [(r, d)]) :: specDoneSegmentsAux [] rest
      else specDoneSegmentsAux (acc ++ [(r, d)]) rest

def specDoneSegments (traj : List (ℚ × Bool)) : List (List (ℚ × Bool)) :=
  specDoneSegmentsAux [] traj

def specSegmentStat (seg : List (ℚ × Bool)) : ℚ × ℕ :=
  ((seg.map Prod.fst).sum, seg.length)

/-! ### Advantage normalization in `ppo_update` (lines 232-233, 244)

`batch_advantages = (batch_advantages - mean) / (std + 1e-8)` is executed
once, before the epoch loop; every minibatch then merely indexes into the
normalized tensor.  `torch.Tensor.mean` and the Bessel-corrected
`torch.Tensor.std` are modelled over `ℝ`. -/

noncomputable def torchMean (xs : List ℝ) : ℝ := xs.sum / xs.length

noncomputable def torchStd (xs : List ℝ) : ℝ :=
  Real.sqrt ((xs.map (fun x => (x - torchMean xs) ^ 2)).sum / ((xs.length : ℝ) - 1))

noncomputable def normalizeAdvantages (advs : List ℝ) : List ℝ :=
  advs.map (fun a => (a - torchMean advs) / (torchStd advs + 1e-8))

/-- The advantages a minibatch sees (line 244): plain indexing into the
once-normalized batch tensor. -/
noncomputable def ppoMinibatchAdvs (advs : List ℝ) (mbIdx : List ℕ) : List ℝ :=
  mbIdx.map (fun i => (normalizeAdvantages advs).getD i 0)

/-! ### Squashed-Gaussian log-probabilities
(`worker_fn` lines 140-150 and `ppo_update` lines 247-255)

Per action dimension: the sampling path draws `x`, squashes
`y = tanh x`, rescales `a = y * action_scale + action_bias`, and records
`Normal(mean, exp(log_std)).log_prob(x) -
 log(action_scale * (1 - y^2) + 1e-6)`; the update path clamps the
stored action to `(-1 + EPSILON, 1 - EPSILON)` with `EPSILON = 1e-5`
(module line 63), inverts tanh, and computes
`Normal(mean, exp(log_std)).log_prob(atanh(clamped)) -
 log(1 - a^2 + EPSILON)`.  Both paths sum over action dimensions, here
lists consumed in lockstep.  The training environment's action space is
`Box(-1, 1)`, so `action_scale = 1` and `action_bias = 0` (lines
81-88, 116). -/

noncomputable def EPSILON : ℝ := 1e-5

noncomputable def gaussLogPdf (mean std x : ℝ) : ℝ :=
  -((x - mean) ^ 2) / (2 * std ^ 2) - Real.log std
    - Real.log (Real.sqrt (2 * Real.pi))

noncomputable def sampledActionDim (action_scale action_bias x : ℝ) : ℝ :=
  Real.tanh x * action_scale + action_bias

noncomputable def sampledLogProbDim (mean logStd action_scale x : ℝ) : ℝ :=
  gaussLogPdf mean (Real.exp logStd) x
    - Real.log (action_scale * (1 - Real.tanh x ^ 2) + 1e-6)

noncomputable def clampR (x lo hi : ℝ) : ℝ := max lo (min x hi)

noncomputable def atanhR (y : ℝ) : ℝ := Real.log ((1 + y) / (1 - y)) / 2

noncomputable def newLogProbDim (mean logStd a : ℝ) : ℝ :=
  gaussLogPdf mean (Real.exp logStd)
      (atanhR (clampR a (-1 + EPSILON) (1 - EPSILON)))
    - Real.log (1 - a ^ 2 + EPSILON)

noncomputable def sampledLogProb : List ℝ → List ℝ → List ℝ → ℝ → ℝ
  | m :: ms, s :: ss, x :: xs, scale =>
      sampledLogProbDim m s scale x + sampledLogProb ms ss xs scale
  | _, _, _, _ => 0

noncomputable def newLogProb : List ℝ → List ℝ → List ℝ → ℝ
  | m :: ms, s :: ss, a :: rest =>
      newLogProbDim m s a + newLogProb ms ss rest
  | _, _, _ => 0

/-! ### Heap model of `compute_gae` (lines 189-211) for the frame claim

NumPy arrays live in a heap of numeric arrays (a boolean `dones` array is
stored as 0/1 entries).  `np.zeros_like` and the construction of
`returns = advantages + values` allocate fresh arrays;
`advantages[t] = last_gae_lam` mutates the freshly allocated advantages
array in place.  The pure temporaries (`next_values`, `next_non_terminal`,
`deltas`), each freshly allocated by NumPy, are modelled as values since
they are dead after the call. -/

structure Heap where
  arrays : List (List ℚ)
deriving DecidableEq

def Heap.read (h : Heap) (i : ℕ) : List ℚ := h.arrays.getD i []

def Heap.allocArr (h : Heap) (xs : List ℚ) : Heap := ⟨h.arrays ++ [xs]⟩

def Heap.write (h : Heap) (i : ℕ) (xs : List ℚ) : Heap := ⟨h.arrays.set i xs⟩

/-- The backward loop `for t in reversed(range(num_steps))`, writing
`advantages[t]` in place and carrying `last_gae_lam`. -/
def gaeLoopHeap (gamma lam : ℚ) (deltas nnt : List ℚ) :
    ℕ → Heap → ℕ → ℚ → Heap
  | 0, h, _, _ => h
  | t + 1, h, aIdx, last =>
      let lastNew := deltas.getD t 0 + gamma * lam * nnt.getD t 0 * last
      let h' := h.write aIdx ((h.read aIdx).set t lastNew)
      gaeLoopHeap gamma lam deltas nnt t h' aIdx lastNew

def compute_gae_heap (h : Heap) (rIdx vIdx dIdx : ℕ) (last_value : ℚ)
    (last_done : Bool) (gamma lam : ℚ) : Heap × ℕ × ℕ :=
  let rewards := h.read rIdx
  let values := h.read vIdx
  let dones := h.read dIdx
  let aIdx := h.arrays.length
  let h1 := h.allocArr (List.replicate rewards.length 0)
  let nextVals := nextValuesL values last_value last_done
  let nnt := dones.map (fun d => 1 - d)
  let deltas := deltasL gamma rewards values nextVals nnt
  let h2 := gaeLoopHeap gamma lam deltas nnt rewards.length h1 aIdx 0
  let retIdx := h2.arrays.length
  let h3 := h2.allocArr (List.zipWith (· + ·) (h2.read aIdx) values)
  (h3, aIdx, retIdx)

/-! ### Theorems -/

theorem gaeAdvList_length (gamma lam : ℚ) (ps : List (ℚ × ℚ)) :
    (gaeAdvList gamma lam ps).length = ps.length := by
  induction ps with
  | nil => rfl
  | cons p rest ih => simp [gaeAdvList, ih]

theorem headD_eq_getD {α : Type} (l : List α) (d : α) : l.headD d = l.getD 0 d := by
  cases l <;> rfl

/-- The backward recursion, uniformly: the advantage at index `t` is
`delta[t] + gamma * lam * nnt[t] * A[t+1]`, where an out-of-range read of
`A` defaults to `0` (this also covers the last index, whose recursion
multiplies by the initial accumulator `0`). -/
theorem gaeAdvList_getD (gamma lam : ℚ) (ps : List (ℚ × ℚ)) (t : ℕ)
    (ht : t < ps.length) :
    (gaeAdvList gamma lam ps).getD t 0 =
      (ps.getD t (0, 0)).1
        + gamma * lam * (ps.getD t (0, 0)).2
            * (gaeAdvList gamma lam ps).getD (t + 1) 0 := by
  induction ps generalizing t with
  | nil => simp at ht
  | cons p rest ih =>
      cases t with
      | zero =>
          simp only [gaeAdvList, List.getD_cons_zero, List.getD_cons_succ]
          rw [headD_eq_getD]
      | succ t =>
          simp only [gaeAdvList, List.getD_cons_succ]
          exact ih t (by simpa using Nat.lt_of_succ_lt_succ ht)

theorem deltasL_getD (gamma : ℚ) (rewards values nextVals nnt : List ℚ)
    (T t : ℕ) (hr : rewards.length = T) (hv : values.length = T)
    (hn : nextVals.length = T) (hnt : nnt.length = T) (ht : t < T) :
    (deltasL gamma rewards values nextVals nnt).getD t 0 =
      rewards.getD t 0 + gamma * nextVals.getD t 0 * nnt.getD t 0
        - values.getD t 0 := by
  have hlen : (deltasL gamma rewards values nextVals nnt).length = T := by
    simp [deltasL, hr, hv, hn, hnt]
  rw [List.getD_eq_getElem _ _ (by omega : t < (deltasL gamma rewards values nextVals nnt).length)]
  unfold deltasL
  rw [List.getElem_zipWith]
  rw [List.getElem_zip, List.getElem_zip]
  rw [List.getD_eq_getElem _ _ (by omega : t < rewards.length),
    List.getD_eq_getElem _ _ (by omega : t < values.length),
    List.getD_eq_getElem _ _ (by omega : t < nextVals.length),
    List.getD_eq_getElem _ _ (by omega : t < nnt.length)]

theorem nextValuesL_length (values : List ℚ) (lv : ℚ) (ld : Bool)
    (_h : 0 < values.length) :
    (nextValuesL values lv ld).length = values.length := by
  simp [nextValuesL]
  omega

theorem nextValuesL_getD_lt (values : List ℚ) (lv : ℚ) (ld : Bool) (t : ℕ)
    (h : t + 1 < values.length) :
    (nextValuesL values lv ld).getD t 0 = values.getD (t + 1) 0 := by
  unfold nextValuesL
  have htl : t < values.tail.length := by simp; omega
  rw [List.getD_append _ _ _ _ htl]
  rw [List.getD_eq_getElem _ _ htl, List.getElem_tail,
    List.getD_eq_getElem _ _ (by omega : t + 1 < values.length)]

theorem nextValuesL_getD_last (values : List ℚ) (lv : ℚ) (ld : Bool)
    (_h : 0 < values.length) :
    (nextValuesL values lv ld).getD (values.length - 1) 0 =
      if ld then 0 else lv := by
  unfold nextValuesL
  have htl : values.tail.length = values.length - 1 := by simp
  rw [List.getD_append_right _ _ _ _ (by omega)]
  rw [htl]
  simp

theorem nonTerminalL_getD (dones : List Bool) (t : ℕ) (ht : t < dones.length) :
    (nonTerminalL dones).getD t 0 =
      1 - (if dones.getD t false then 1 else 0) := by
  unfold nonTerminalL
  rw [List.getD_eq_getElem _ _ (by simpa using ht), List.getElem_map,
    List.getD_eq_getElem _ _ ht]

/-- C1: `compute_gae` returns advantage and return arrays of the input
length `T` that satisfy the spec recursion: `A[T-1] = delta[T-1]`,
`A[t] = delta[t] + gamma * lambda * (1 - dones[t]) * A[t+1]` for
`t < T-1`, and `returns[t] = A[t] + values[t]`, where `delta` is the
spec-side TD error built from the spec-side bootstrap values. -/
theorem compute_gae_satisfies_spec_recursion
    (rewards values : List ℚ) (dones : List Bool) (lv : ℚ) (ld : Bool)
    (gamma lam : ℚ) (T t : ℕ)
    (hr : rewards.length = T) (hv : values.length = T)
    (hd : dones.length = T) (ht : t < T) :
    ((compute_gae rewards values dones lv ld gamma lam).1.length = T) ∧
    ((compute_gae rewards values dones lv ld gamma lam).2.length = T) ∧
    ((compute_gae rewards values dones lv ld gamma lam).1.getD (T - 1) 0 =
        gaeSpecDelta rewards values dones lv ld gamma T (T - 1)) ∧
    (t < T - 1 →
      (compute_gae rewards values dones lv ld gamma lam).1.getD t 0 =
        gaeSpecDelta rewards values dones lv ld gamma T t
          + gamma * lam * (1 - (if dones.getD t false then 1 else 0))
              * (compute_gae rewards values dones lv ld gamma lam).1.getD (t + 1) 0) ∧
    ((compute_gae rewards values dones lv ld gamma lam).2.getD t 0 =
      (compute_gae rewards values dones lv ld gamma lam).1.getD t 0
        + values.getD t 0) := by
  have hT0 : 0 < T := by omega
  have hnv : (nextValuesL values lv ld).length = T := by
    rw [nextValuesL_length values lv ld (by omega)]; exact hv
  have hnt : (nonTerminalL dones).length = T := by simp [nonTerminalL, hd]
  have hdl : (deltasL gamma rewards values (nextValuesL values lv ld)
      (nonTerminalL dones)).length = T := by
    simp [deltasL, hr, hv, hnv, hnt]
  have hzip : ((deltasL gamma rewards values (nextValuesL values lv ld)
      (nonTerminalL dones)).zip (nonTerminalL dones)).length = T := by
    simp [hdl, hnt]
  have hA1 : (compute_gae rewards values dones lv ld gamma lam).1 =
      gaeAdvList gamma lam
        ((deltasL gamma rewards values (nextValuesL values lv ld)
          (nonTerminalL dones)).zip (nonTerminalL dones)) := rfl
  have hAlen : (compute_gae rewards values dones lv ld gamma lam).1.length = T := by
    rw [hA1, gaeAdvList_length, hzip]
  have hR1 : (compute_gae rewards values dones lv ld gamma lam).2 =
      List.zipWith (· + ·) (compute_gae rewards values dones lv ld gamma lam).1
        values := rfl
  have hRlen : (compute_gae rewards values dones lv ld gamma lam).2.length = T := by
    rw [hR1]; simp [hAlen, hv]
  -- the zipped input read at an in-range index
  have hzget : ∀ s : ℕ, s < T →
      ((deltasL gamma rewards values (nextValuesL values lv ld)
        (nonTerminalL dones)).zip (nonTerminalL dones)).getD s (0, 0) =
      ((deltasL gamma rewards values (nextValuesL values lv ld)
        (nonTerminalL dones)).getD s 0, (nonTerminalL dones).getD s 0) := by
    intro s hs
    rw [List.getD_eq_getElem _ _ (by omega : s < _), List.getElem_zip,
      List.getD_eq_getElem _ _ (by omega : s < _),
      List.getD_eq_getElem _ _ (by omega : s < _)]
  -- the uniform recursion step at an in-range index, in spec terms
  have hstep : ∀ s : ℕ, s < T →
      (compute_gae rewards values dones lv ld gamma lam).1.getD s 0 =
        (deltasL gamma rewards values (nextValuesL values lv ld)
          (nonTerminalL dones)).getD s 0
        + gamma * lam * (nonTerminalL dones).getD s 0
            * (compute_gae rewards values dones lv ld gamma lam).1.getD (s + 1) 0 := by
    intro s hs
    rw [hA1]
    rw [gaeAdvList_getD gamma lam _ s (by omega)]
    rw [hzget s hs]
  have hdelta : ∀ s : ℕ, s < T →
      (deltasL gamma rewards values (nextValuesL values lv ld)
        (nonTerminalL dones)).getD s 0 =
      gaeSpecDelta rewards values dones lv ld gamma T s := by
    intro s hs
    rw [deltasL_getD gamma rewards values _ _ T s hr hv hnv hnt hs]
    rw [nonTerminalL_getD dones s (by omega)]
    unfold gaeSpecDelta gaeSpecNextValue
    by_cases hcase : s < T - 1
    · rw [if_pos hcase, nextValuesL_getD_lt values lv ld s (by omega)]
    · have hs' : s = T - 1 := by omega
      rw [if_neg hcase, hs']
      have := nextValuesL_getD_last values lv ld (by omega)
      rw [hv] at this
      rw [this]
  refine ⟨hAlen, hRlen, ?_, ?_, ?_⟩
  · -- last index: the recursion multiplies by the out-of-range read 0
    have h0 : (compute_gae rewards values dones lv ld gamma lam).1.getD T 0 = 0 :=
      List.getD_eq_default _ _ (by omega)
    have := hstep (T - 1) (by omega)
    rw [show T - 1 + 1 = T by omega, h0, hdelta (T - 1) (by omega)] at this
    rw [this]; ring
  · intro htlt
    have := hstep t ht
    rw [hdelta t ht, nonTerminalL_getD dones t (by omega)] at this
    exact this
  · rw [hR1]
    rw [List.getD_eq_getElem _ _ (by simp [hAlen, hv]; omega :
      t < (List.zipWith (· + ·) (compute_gae rewards values dones lv ld gamma lam).1 values).length)]
    rw [List.getElem_zipWith]
    rw [List.getD_eq_getElem _ _ (by omega : t < (compute_gae rewards values dones lv ld gamma lam).1.length),
      List.getD_eq_getElem _ _ (by omega : t < values.length)]

/-- Witness for C1 at a concrete trajectory of length 2. -/
theorem compute_gae_satisfies_spec_recursion_witness :
    ((compute_gae [1, 2] [1/2, 1/4] [false, true] 3 false (1/2) (1/3)).1.length = 2) ∧
    ((compute_gae [1, 2] [1/2, 1/4] [false, true] 3 false (1/2) (1/3)).2.length = 2) ∧
    ((compute_gae [1, 2] [1/2, 1/4] [false, true] 3 false (1/2) (1/3)).1.getD (2 - 1) 0 =
        gaeSpecDelta [1, 2] [1/2, 1/4] [false, true] 3 false (1/2) 2 (2 - 1)) ∧
    ((compute_gae [1, 2] [1/2, 1/4] [false, true] 3 false (1/2) (1/3)).1.getD 0 0 =
        gaeSpecDelta [1, 2] [1/2, 1/4] [false, true] 3 false (1/2) 2 0
          + (1/2) * (1/3) * (1 - (if ([false, true] : List Bool).getD 0 false then 1 else 0))
              * (compute_gae [1, 2] [1/2, 1/4] [false, true] 3 false (1/2) (1/3)).1.getD (0 + 1) 0) ∧
    ((compute_gae [1, 2] [1/2, 1/4] [false, true] 3 false (1/2) (1/3)).2.getD 0 0 =
      (compute_gae [1, 2] [1/2, 1/4] [false, true] 3 false (1/2) (1/3)).1.getD 0 0
        + ([1/2, 1/4] : List ℚ).getD 0 0) := by
  obtain ⟨h1, h2, h3, h4, h5⟩ :=
    compute_gae_satisfies_spec_recursion [1, 2] [1/2, 1/4] [false, true] 3 false
      (1/2) (1/3) 2 0 (by decide) (by decide) (by decide) (by decide)
  exact ⟨h1, h2, h3, h4 (by decide), h5⟩

theorem collectLoop_length {S Obs A : Type} (policy : Obs → A × ℚ × ℚ)
    (stepE : S → A → Obs × ℚ × Bool × S) (resetE : S → Obs × S)
    (n : ℕ) (obs : Obs) (s : S) :
    (collectLoop policy stepE resetE n obs s).length = n := by
  induction n generalizing obs s with
  | zero => rfl
  | succ n ih => simp [collectLoop, ih]

/-- C4: every worker trajectory has exactly `steps_per_worker`
transitions — whatever the environment's done flags and in-place resets
do — and the concatenated batch has length
`num_workers * steps_per_worker`. -/
theorem trajectory_and_batch_length {S Obs A : Type}
    (policy : Obs → A × ℚ × ℚ) (stepE : S → A → Obs × ℚ × Bool × S)
    (resetE : S → Obs × S) (num_workers steps_per_worker : ℕ) (init : ℕ → S) :
    (∀ s0 : S, (workerTrajectory policy stepE resetE steps_per_worker s0).length =
      steps_per_worker) ∧
    (mainBatch policy stepE resetE num_workers steps_per_worker init).length =
      num_workers * steps_per_worker := by
  constructor
  · intro s0
    unfold workerTrajectory
    exact collectLoop_length _ _ _ _ _ _
  · unfold mainBatch
    rw [List.length_flatten]
    have hmap : ((List.range num_workers).map
        (fun i => workerTrajectory policy stepE resetE steps_per_worker (init i))).map
          List.length =
        (List.range num_workers).map (fun _ => steps_per_worker) := by
      rw [List.map_map]
      apply List.map_congr_left
      intro i _
      unfold Function.comp workerTrajectory
      exact collectLoop_length _ _ _ _ _ _
    rw [hmap, List.map_const', List.sum_replicate, List.length_range, smul_eq_mul]

theorem chunk_nil {α : Type} (m : ℕ) : chunk m ([] : List α) = [] := by
  simp [chunk]

theorem chunk_cons {α : Type} (m : ℕ) (xs : List α) (hm : m ≠ 0)
    (hxs : xs ≠ []) : chunk m xs = xs.take m :: chunk m (xs.drop m) := by
  cases xs with
  | nil => exact absurd rfl hxs
  | cons x l => simp [chunk, hm]

theorem chunk_flatten {α : Type} (m : ℕ) (hm : m ≠ 0) (xs : List α) :
    (chunk m xs).flatten = xs := by
  have H : ∀ (n : ℕ) (ys : List α), ys.length ≤ n → (chunk m ys).flatten = ys := by
    intro n
    induction n with
    | zero =>
        intro ys hy
        have : ys = [] := List.eq_nil_of_length_eq_zero (by omega)
        rw [this, chunk_nil]
        rfl
    | succ n ih =>
        intro ys hy
        by_cases hys : ys = []
        · rw [hys, chunk_nil]; rfl
        · rw [chunk_cons m ys hm hys]
          have hylen : 0 < ys.length := List.length_pos.mpr hys
          have : (chunk m (ys.drop m)).flatten = ys.drop m := by
            apply ih
            simp only [List.length_drop]
            omega
          simp only [List.flatten_cons, this, List.take_append_drop]
  exact H xs.length xs le_rfl

theorem chunk_sizes {α : Type} (m : ℕ) (hm : m ≠ 0) (xs : List α) :
    (∀ c ∈ (chunk m xs).dropLast, c.length = m) ∧
    (∀ c ∈ chunk m xs, c.length ≤ m ∧ c ≠ []) ∧
    (m ∣ xs.length → ∀ c ∈ chunk m xs, c.length = m) := by
  have H : ∀ (n : ℕ) (ys : List α), ys.length ≤ n →
      (∀ c ∈ (chunk m ys).dropLast, c.length = m) ∧
      (∀ c ∈ chunk m ys, c.length ≤ m ∧ c ≠ []) ∧
      (m ∣ ys.length → ∀ c ∈ chunk m ys, c.length = m) := by
    intro n
    induction n with
    | zero =>
        intro ys hy
        have : ys = [] := List.eq_nil_of_length_eq_zero (by omega)
        rw [this, chunk_nil]
        simp
    | succ n ih =>
        intro ys hy
        by_cases hys : ys = []
        · rw [hys, chunk_nil]; simp
        · have hylen : 0 < ys.length := List.length_pos.mpr hys
          have hdrop : (ys.drop m).length ≤ n := by
            simp only [List.length_drop]; omega
          obtain ⟨ih1, ih2, ih3⟩ := ih (ys.drop m) hdrop
          rw [chunk_cons m ys hm hys]
          refine ⟨?_, ?_, ?_⟩
          · intro c hc
            rcases hrest : chunk m (ys.drop m) with _ | ⟨r, rs⟩
            · rw [hrest] at hc
              simp at hc
            · rw [hrest] at hc ih1
              simp only [List.dropLast_cons₂, List.mem_cons] at hc
              rcases hc with hc | hc
              · -- the head piece is full: a later piece exists, so m ≤ ys.length
                have hne : ys.drop m ≠ [] := by
                  intro hempty
                  rw [hempty, chunk_nil] at hrest
                  exact List.noConfusion hrest
                have hlen : m < ys.length := by
                  have := List.length_pos.mpr hne
                  simp only [List.length_drop] at this
                  omega
                rw [hc]
                simp only [List.length_take]
                omega
              · exact ih1 c hc
          · intro c hc
            simp only [List.mem_cons] at hc
            rcases hc with hc | hc
            · constructor
              · rw [hc]; simp only [List.length_take]; omega
              · rw [hc]
                intro hempty
                have := congrArg List.length hempty
                simp only [List.length_take, List.length_nil] at this
                omega
            · exact ih2 c hc
          · intro hdvd c hc
            have hmle : m ≤ ys.length := Nat.le_of_dvd hylen hdvd
            simp only [List.mem_cons] at hc
            rcases hc with hc | hc
            · rw [hc]; simp only [List.length_take]; omega
            · refine ih3 ?_ c hc
              simp only [List.length_drop]
              exact (Nat.dvd_sub' hdvd dvd_rfl)
  exact H xs.length xs le_rfl

theorem sum_counts_eq_zero_imp {i : ℕ} :
    ∀ L : List (List ℕ), ((L.map (fun c => c.count i)).sum = 0) →
      L.countP (fun c => decide (i ∈ c)) = 0 := by
  intro L
  induction L with
  | nil => intro _; rfl
  | cons c rest ih =>
      intro hsum
      simp only [List.map_cons, List.sum_cons] at hsum
      have hc : c.count i = 0 := by omega
      have hrest : (rest.map (fun c => c.count i)).sum = 0 := by omega
      rw [List.countP_cons]
      rw [ih hrest]
      simp [List.count_eq_zero.mp hc]

theorem sum_counts_eq_one_imp {i : ℕ} :
    ∀ L : List (List ℕ), ((L.map (fun c => c.count i)).sum = 1) →
      L.countP (fun c => decide (i ∈ c)) = 1 := by
  intro L
  induction L with
  | nil => intro h; simp at h
  | cons c rest ih =>
      intro hsum
      simp only [List.map_cons, List.sum_cons] at hsum
      rw [List.countP_cons]
      by_cases hc : i ∈ c
      · have hpos : 0 < c.count i := List.count_pos_iff.mpr hc
        have hcc : c.count i = 1 := by omega
        have hrest : (rest.map (fun c => c.count i)).sum = 0 := by omega
        rw [sum_counts_eq_zero_imp rest hrest]
        simp [hc]
      · have hcc : c.count i = 0 := List.count_eq_zero.mpr hc
        have hrest : (rest.map (fun c => c.count i)).sum = 1 := by omega
        rw [ih hrest]
        simp [hc]

/-- C5: slicing a permutation of `range batch_size` into minibatches of
`minibatch_size` yields a partition: the pieces concatenate back to the
permutation, every batch index lies in exactly one piece, every piece
except possibly the trailing one has exactly `minibatch_size` elements,
no piece is larger or empty, and when `minibatch_size` divides the batch
size all pieces are full. -/
theorem minibatch_partition (batch_size minibatch_size : ℕ) (indices : List ℕ)
    (hm : 0 < minibatch_size)
    (hperm : List.Perm indices (List.range batch_size)) :
    ((chunk minibatch_size indices).flatten = indices) ∧
    (∀ i, i < batch_size →
      (chunk minibatch_size indices).countP (fun c => decide (i ∈ c)) = 1) ∧
    (∀ c ∈ (chunk minibatch_size indices).dropLast, c.length = minibatch_size) ∧
    (∀ c ∈ chunk minibatch_size indices, c.length ≤ minibatch_size ∧ c ≠ []) ∧
    (minibatch_size ∣ batch_size →
      ∀ c ∈ chunk minibatch_size indices, c.length = minibatch_size) := by
  have hm' : minibatch_size ≠ 0 := by omega
  have hflat : (chunk minibatch_size indices).flatten = indices :=
    chunk_flatten minibatch_size hm' indices
  obtain ⟨hs1, hs2, hs3⟩ := chunk_sizes minibatch_size hm' indices
  have hlen : indices.length = batch_size := by
    rw [hperm.length_eq, List.length_range]
  refine ⟨hflat, ?_, hs1, hs2, fun hdvd => hs3 (by rw [hlen]; exact hdvd)⟩
  intro i hi
  have hnodup : indices.Nodup := hperm.symm.nodup (List.nodup_range _)
  have hmem : i ∈ indices := hperm.mem_iff.mpr (List.mem_range.mpr hi)
  have hcount : indices.count i = 1 := List.count_eq_one_of_mem hnodup hmem
  apply sum_counts_eq_one_imp
  calc ((chunk minibatch_size indices).map (fun c => c.count i)).sum
      = (chunk minibatch_size indices).flatten.count i := by
        rw [List.count_flatten]
    _ = 1 := by rw [hflat, hcount]

/-- Witness for C5: batch of 5 indices, minibatches of 2 (one undersized
trailing minibatch). -/
theorem minibatch_partition_witness :
    ((chunk 2 [4, 2, 0, 1, 3]).flatten = [4, 2, 0, 1, 3]) ∧
    ((chunk 2 [4, 2, 0, 1, 3]).countP (fun c => decide (3 ∈ c)) = 1) := by
  obtain ⟨h1, h2, _, _, _⟩ :=
    minibatch_partition 5 2 [4, 2, 0, 1, 3] (by decide) (by decide)
  exact ⟨h1, h2 3 (by decide)⟩

/-- C7: within one iteration every worker receives the same seed
argument; the effective environment seeds `seed + update*W + i` are
pairwise distinct across the workers of one iteration; and seeds from
different iterations never collide. -/
theorem worker_seed_scheme (seed num_workers update update' i j : ℕ)
    (hi : i < num_workers) (hj : j < num_workers) :
    (workerSeedArg seed update num_workers i =
      workerSeedArg seed update num_workers j) ∧
    (workerEnvSeed (workerSeedArg seed update num_workers i) i =
      seed + update * num_workers + i) ∧
    (i ≠ j →
      workerEnvSeed (workerSeedArg seed update num_workers i) i ≠
      workerEnvSeed (workerSeedArg seed update num_workers j) j) ∧
    (update ≠ update' →
      workerEnvSeed (workerSeedArg seed update num_workers i) i ≠
      workerEnvSeed (workerSeedArg seed update' num_workers j) j) := by
  refine ⟨rfl, rfl, ?_, ?_⟩
  · intro hij
    unfold workerEnvSeed workerSeedArg
    omega
  · intro hu
    unfold workerEnvSeed workerSeedArg
    rcases Nat.lt_or_ge update update' with hlt | hge
    · have hstep : update * num_workers + num_workers ≤ update' * num_workers := by
        have h1 : update + 1 ≤ update' := hlt
        calc update * num_workers + num_workers = (update + 1) * num_workers := by ring
          _ ≤ update' * num_workers := Nat.mul_le_mul_right _ h1
      omega
    · have hlt' : update' < update := by omega
      have hstep : update' * num_workers + num_workers ≤ update * num_workers := by
        have h1 : update' + 1 ≤ update := hlt'
        calc update' * num_workers + num_workers = (update' + 1) * num_workers := by ring
          _ ≤ update * num_workers := Nat.mul_le_mul_right _ h1
      omega

/-- Witness for C7: seed 4, two workers, iterations 1 and 2, workers 0
and 1. -/
theorem worker_seed_scheme_witness :
    (workerSeedArg 4 1 2 0 = workerSeedArg 4 1 2 1) ∧
    (workerEnvSeed (workerSeedArg 4 1 2 0) 0 ≠
      workerEnvSeed (workerSeedArg 4 1 2 1) 1) ∧
    (workerEnvSeed (workerSeedArg 4 1 2 0) 0 ≠
      workerEnvSeed (workerSeedArg 4 2 2 1) 1) := by
  obtain ⟨h1, _, h3, h4⟩ := worker_seed_scheme 4 2 1 2 0 1 (by decide) (by decide)
  exact ⟨h1, h3 (by decide), h4 (by decide)⟩

/-- C8: a `RuntimeError` from reconfiguring the start method is
swallowed: `main`'s prologue always returns successfully, on the error
path it continues with the start-method state unchanged, and the error
path is reachable (a second configuration attempt raises). -/
theorem start_method_error_swallowed (current : Option String) (seed : ℕ) :
    (∃ st, mainPrologue current seed = .ok st) ∧
    (∀ e, set_start_method current "spawn" = .error e →
      mainPrologue current seed = .ok ⟨current, seed⟩) ∧
    set_start_method (some "spawn") "spawn" = .error .runtimeError := by
  refine ⟨?_, ?_, rfl⟩
  · exact ⟨_, rfl⟩
  · intro e he
    cases current with
    | none => simp [set_start_method] at he
    | some s => simp [mainPrologue, suppressRuntimeError, set_start_method]

/-- Witness for C8: the already-configured state raises and is
swallowed, training proceeding with that state. -/
theorem start_method_error_swallowed_witness :
    mainPrologue (some "spawn") 4 = .ok ⟨some "spawn", 4⟩ ∧
    set_start_method (some "spawn") "spawn" = .error .runtimeError := by
  obtain ⟨_, h2, h3⟩ := start_method_error_swallowed (some "spawn") 4
  exact ⟨h2 .runtimeError rfl, h3⟩

theorem episodeScanAux_eq_segments (l : List (ℚ × Bool)) :
    ∀ acc : List (ℚ × Bool),
      episodeScanAux (acc.map Prod.fst).sum acc.length l =
        (specDoneSegmentsAux acc l).map specSegmentStat := by
  induction l with
  | nil => intro acc; rfl
  | cons p rest ih =>
      intro acc
      obtain ⟨r, d⟩ := p
      cases d with
      | true =>
          simp only [episodeScanAux, specDoneSegmentsAux, if_true,
            List.map_cons]
          congr 1
          · simp [specSegmentStat]
          · have := ih []
            simpa using this
      | false =>
          simp only [episodeScanAux, specDoneSegmentsAux, if_false,
            Bool.false_eq_true]
          have := ih (acc ++ [(r, false)])
          simpa using this

theorem specDoneSegmentsAux_no_done (l : List (ℚ × Bool)) :
    ∀ acc : List (ℚ × Bool), (∀ p ∈ l, p.2 = false) →
      specDoneSegmentsAux acc l = [] := by
  induction l with
  | nil => intro acc _; rfl
  | cons p rest ih =>
      intro acc hnd
      obtain ⟨r, d⟩ := p
      have hd : d = false := hnd (r, d) (List.mem_cons_self _ _)
      subst hd
      simp only [specDoneSegmentsAux, if_false, Bool.false_eq_true]
      exact ih _ (fun q hq => hnd q (List.mem_cons_of_mem _ hq))

/-- C9: the per-trajectory scan records exactly one episode per done
flag, whose reward/length are the sum and count of the transitions since
the previous done flag (or the trajectory start); a trajectory with no
done flag records nothing; and the per-iteration statistics are the
concatenation of the independent per-trajectory scans, each starting
from zeroed accumulators. -/
theorem episode_stats_are_done_segments
    (traj : List (ℚ × Bool)) (trajs : List (List (ℚ × Bool))) :
    (episodeStats traj = (specDoneSegments traj).map specSegmentStat) ∧
    ((∀ p ∈ traj, p.2 = false) → episodeStats traj = []) ∧
    (mainEpisodeStats trajs =
      (trajs.map (fun t => (specDoneSegments t).map specSegmentStat)).flatten) := by
  have hmain : ∀ t : List (ℚ × Bool),
      episodeStats t = (specDoneSegments t).map specSegmentStat := by
    intro t
    have := episodeScanAux_eq_segments t []
    simpa [episodeStats, specDoneSegments] using this
  refine ⟨hmain traj, ?_, ?_⟩
  · intro hnd
    rw [hmain traj]
    unfold specDoneSegments
    rw [specDoneSegmentsAux_no_done traj [] hnd]
    rfl
  · unfold mainEpisodeStats
    congr 1
    exact List.map_congr_left (fun t _ => hmain t)

/-- C6: the normalization divisor `std + 1e-8` is strictly positive for
every batch; a zero-variance (constant) batch has `std = 0` exactly, so
only the epsilon protects it; and each minibatch's advantages are the
whole-batch normalized values — normalization happens once, before
minibatching. -/
theorem advantage_normalization_sound (advs : List ℝ) (mbIdx : List ℕ)
    (hIdx : ∀ i ∈ mbIdx, i < advs.length) :
    (0 < torchStd advs + 1e-8) ∧
    (∀ c : ℝ, torchStd (List.replicate advs.length c) = 0) ∧
    (ppoMinibatchAdvs advs mbIdx =
      mbIdx.map (fun i =>
        (advs.getD i 0 - torchMean advs) / (torchStd advs + 1e-8))) := by
  refine ⟨?_, ?_, ?_⟩
  · have h1 : (0 : ℝ) ≤ torchStd advs := Real.sqrt_nonneg _
    have h2 : (0 : ℝ) < 1e-8 := by norm_num
    linarith
  · intro c
    rcases Nat.eq_zero_or_pos advs.length with h0 | hpos
    · rw [h0]
      simp [torchStd, torchMean]
    · have hlen : (advs.length : ℝ) ≠ 0 := by
        have : advs.length ≠ 0 := by omega
        exact_mod_cast this
      have hmean : torchMean (List.replicate advs.length c) = c := by
        unfold torchMean
        rw [List.sum_replicate, List.length_replicate, nsmul_eq_mul]
        exact mul_div_cancel_left₀ c hlen
      unfold torchStd
      rw [hmean]
      have hmap : (List.replicate advs.length c).map (fun x => (x - c) ^ 2) =
          List.replicate advs.length 0 := by
        rw [List.map_replicate]
        simp
      rw [hmap, List.sum_replicate]
      simp
  · unfold ppoMinibatchAdvs normalizeAdvantages
    apply List.map_congr_left
    intro i hi
    have hilen : i < advs.length := hIdx i hi
    rw [List.getD_eq_getElem _ _ (by simpa using hilen), List.getElem_map,
      List.getD_eq_getElem _ _ hilen]

/-- Witness for C6 at the batch `[2, 4]` with minibatch indices `[1, 0]`. -/
theorem advantage_normalization_sound_witness :
    (0 < torchStd [2, 4] + 1e-8) ∧
    (torchStd (List.replicate ([2, 4] : List ℝ).length (5 : ℝ)) = 0) ∧
    (ppoMinibatchAdvs [2, 4] [1, 0] =
      [1, 0].map (fun i =>
        (([2, 4] : List ℝ).getD i 0 - torchMean [2, 4]) / (torchStd [2, 4] + 1e-8))) := by
  obtain ⟨h1, h2, h3⟩ := advantage_normalization_sound [2, 4] [1, 0]
    (by intro i hi; fin_cases hi <;> norm_num)
  exact ⟨h1, h2 5, h3⟩

theorem tanh_eq_exp_form (x : ℝ) :
    Real.tanh x = (Real.exp (2 * x) - 1) / (Real.exp (2 * x) + 1) := by
  have hx : Real.exp x ≠ 0 := (Real.exp_pos x).ne'
  have h2 : Real.exp (2 * x) = Real.exp x * Real.exp x := by
    rw [two_mul, Real.exp_add]
  have hc : Real.exp x + Real.exp (-x) ≠ 0 := by positivity
  have h1 : Real.exp x * Real.exp x + 1 ≠ 0 := by positivity
  rw [Real.tanh_eq_sinh_div_cosh, Real.sinh_eq, Real.cosh_eq, h2, Real.exp_neg]
  rw [div_eq_div_iff (by positivity) h1]
  field_simp

theorem atanhR_tanh (x : ℝ) : atanhR (Real.tanh x) = x := by
  unfold atanhR
  rw [tanh_eq_exp_form]
  have he : (0 : ℝ) < Real.exp (2 * x) + 1 := by positivity
  have h1 : 1 + (Real.exp (2 * x) - 1) / (Real.exp (2 * x) + 1) =
      2 * Real.exp (2 * x) / (Real.exp (2 * x) + 1) := by
    field_simp
    ring
  have h2 : 1 - (Real.exp (2 * x) - 1) / (Real.exp (2 * x) + 1) =
      2 / (Real.exp (2 * x) + 1) := by
    field_simp
    norm_num
  rw [h1, h2]
  have h3 : 2 * Real.exp (2 * x) / (Real.exp (2 * x) + 1) /
      (2 / (Real.exp (2 * x) + 1)) = Real.exp (2 * x) := by
    field_simp
  rw [h3, Real.log_exp]
  ring

theorem tanh_atanhR (q : ℝ) (h1 : -1 < q) (h2 : q < 1) :
    Real.tanh (atanhR q) = q := by
  rw [tanh_eq_exp_form]
  have hr : (0 : ℝ) < (1 + q) / (1 - q) :=
    div_pos (by linarith) (by linarith)
  have hexp : Real.exp (2 * atanhR q) = (1 + q) / (1 - q) := by
    unfold atanhR
    rw [show 2 * (Real.log ((1 + q) / (1 - q)) / 2) =
      Real.log ((1 + q) / (1 - q)) by ring]
    exact Real.exp_log hr
  rw [hexp]
  have hq : (1 : ℝ) - q ≠ 0 := by linarith
  rw [div_sub_one hq, div_add_one hq]
  have hnum : 1 + q - (1 - q) = 2 * q := by ring
  have hden : 1 + q + (1 - q) = 2 := by ring
  rw [hnum, hden]
  rw [div_div_div_eq]
  field_simp
  ring

/-- Per-dimension form of the amended C2 identity: with the environment's
`action_scale = 1`, `action_bias = 0` and the clamp inactive, the
recomputed log-probability equals the recorded one minus the
epsilon-mismatch term (the update path adds `1e-5` inside the log where
the sampling path added `1e-6`). -/
theorem newLogProbDim_eq_sampled (mean ls x : ℝ)
    (hx : |Real.tanh x| ≤ 1 - EPSILON) :
    newLogProbDim mean ls (sampledActionDim 1 0 x) =
      sampledLogProbDim mean ls 1 x
        - (Real.log (1 - Real.tanh x ^ 2 + EPSILON)
            - Real.log (1 * (1 - Real.tanh x ^ 2) + 1e-6)) := by
  have ha : sampledActionDim 1 0 x = Real.tanh x := by
    unfold sampledActionDim
    ring
  rw [ha]
  rw [abs_le] at hx
  have hclamp : clampR (Real.tanh x) (-1 + EPSILON) (1 - EPSILON) =
      Real.tanh x := by
    unfold clampR
    rw [min_eq_left hx.2, max_eq_right (by linarith [hx.1])]
  unfold newLogProbDim sampledLogProbDim
  rw [hclamp, atanhR_tanh]
  ring

/-- C2 amended: over exact real arithmetic, for any means and log-stds
and any pre-squash samples whose squashed values stay inside the clamp
range, the PPO-update recomputation of the log-probability of the exact
sampled action equals the recorded sampling-time log-probability MINUS a
per-dimension defect `log(1 - y^2 + 1e-5) - log(1*(1 - y^2) + 1e-6)`
(strictly positive, approaching `log 10` at the action bound): the two
paths use different epsilons, so they do not agree. -/
theorem squash_roundtrip_defect (means logStds xs : List ℝ)
    (hm : means.length = xs.length) (hs : logStds.length = xs.length)
    (hx : ∀ x ∈ xs, |Real.tanh x| ≤ 1 - EPSILON) :
    newLogProb means logStds (xs.map (sampledActionDim 1 0)) =
      sampledLogProb means logStds xs 1
        - (xs.map (fun x => Real.log (1 - Real.tanh x ^ 2 + EPSILON)
            - Real.log (1 * (1 - Real.tanh x ^ 2) + 1e-6))).sum := by
  induction xs generalizing means logStds with
  | nil =>
      have hm0 : means = [] := List.eq_nil_of_length_eq_zero hm
      have hs0 : logStds = [] := List.eq_nil_of_length_eq_zero hs
      subst hm0 hs0
      simp [newLogProb, sampledLogProb]
  | cons x rest ih =>
      cases means with
      | nil => simp at hm
      | cons m ms =>
          cases logStds with
          | nil => simp at hs
          | cons s ss =>
              simp only [List.map_cons]
              have hstep : newLogProb (m :: ms) (s :: ss)
                  (sampledActionDim 1 0 x :: rest.map (sampledActionDim 1 0)) =
                  newLogProbDim m s (sampledActionDim 1 0 x)
                    + newLogProb ms ss (rest.map (sampledActionDim 1 0)) := rfl
              have hstep' : sampledLogProb (m :: ms) (s :: ss) (x :: rest) 1 =
                  sampledLogProbDim m s 1 x + sampledLogProb ms ss rest 1 := rfl
              rw [hstep, hstep']
              rw [newLogProbDim_eq_sampled m s x (hx x (List.mem_cons_self _ _))]
              rw [ih ms ss (by simpa using hm) (by simpa using hs)
                (fun y hy => hx y (List.mem_cons_of_mem _ hy))]
              rw [List.sum_cons]
              ring

/-- Witness for the amended C2 theorem at a single dimension with
`mean = 0`, `log_std = 0`, sample `x = 0`. -/
theorem squash_roundtrip_defect_witness :
    newLogProb [0] [0] ([(0 : ℝ)].map (sampledActionDim 1 0)) =
      sampledLogProb [0] [0] [(0 : ℝ)] 1
        - ([(0 : ℝ)].map (fun x =>
            Real.log (1 - Real.tanh x ^ 2 + EPSILON)
              - Real.log (1 * (1 - Real.tanh x ^ 2) + 1e-6))).sum := by
  apply squash_roundtrip_defect [0] [0] [(0 : ℝ)] rfl rfl
  intro x hxmem
  have hx0 : x = 0 := by simpa using hxmem
  rw [hx0, Real.tanh_zero, abs_zero]
  unfold EPSILON
  norm_num

/-- C2 counterexample: at `mean = 0`, `log_std = 0` and the concrete
pre-squash sample `x0 = atanh(9999/10000)` (squashed action
`0.9999`, inside the clamp range), the recomputed log-probability
differs from the recorded one by more than `1/100` — far beyond floating
tolerance — so the round-trip identity claimed by the spec is false. -/
theorem squash_roundtrip_counterexample :
    (newLogProb [0] [0] ([atanhR (9999 / 10000)].map (sampledActionDim 1 0)) ≠
      sampledLogProb [0] [0] [atanhR (9999 / 10000)] 1) ∧
    (sampledLogProb [0] [0] [atanhR (9999 / 10000)] 1
      - newLogProb [0] [0] ([atanhR (9999 / 10000)].map (sampledActionDim 1 0))
        > 1 / 100) := by
  have htanh : Real.tanh (atanhR (9999 / 10000)) = 9999 / 10000 :=
    tanh_atanhR _ (by norm_num) (by norm_num)
  have habs : |Real.tanh (atanhR (9999 / 10000))| ≤ 1 - EPSILON := by
    rw [htanh]
    unfold EPSILON
    rw [abs_of_pos (by norm_num)]
    norm_num
  have hx : ∀ y ∈ [atanhR (9999 / 10000)], |Real.tanh y| ≤ 1 - EPSILON := by
    intro y hy
    have hy' : y = atanhR (9999 / 10000) := by simpa using hy
    rw [hy']
    exact habs
  have hmain := squash_roundtrip_defect [0] [0] [atanhR (9999 / 10000)] rfl rfl hx
  have hsum : ([atanhR (9999 / 10000)].map (fun x =>
      Real.log (1 - Real.tanh x ^ 2 + EPSILON)
        - Real.log (1 * (1 - Real.tanh x ^ 2) + 1e-6))).sum =
      Real.log ((20999 : ℝ) / 20099) := by
    simp only [List.map_cons, List.map_nil, List.sum_cons, List.sum_nil, add_zero]
    rw [htanh]
    have e1 : (1 : ℝ) - (9999 / 10000) ^ 2 + EPSILON = 20999 / 100000000 := by
      unfold EPSILON
      norm_num
    have e2 : (1 : ℝ) * (1 - (9999 / 10000) ^ 2) + 1e-6 = 20099 / 100000000 := by
      norm_num
    rw [e1, e2]
    rw [← Real.log_div (by norm_num) (by norm_num)]
    norm_num
  have hgap : Real.log ((20999 : ℝ) / 20099) > 1 / 100 := by
    have hlt : Real.log ((20099 : ℝ) / 20999) ≤ (20099 : ℝ) / 20999 - 1 :=
      Real.log_le_sub_one_of_pos (by norm_num)
    have hinv : Real.log ((20099 : ℝ) / 20999) =
        -Real.log ((20999 : ℝ) / 20099) := by
      rw [← Real.log_inv]
      norm_num
    rw [hinv] at hlt
    have hnum : (900 : ℝ) / 20999 > 1 / 100 := by norm_num
    linarith
  have hdiff : sampledLogProb [0] [0] [atanhR (9999 / 10000)] 1
      - newLogProb [0] [0] ([atanhR (9999 / 10000)].map (sampledActionDim 1 0))
      = Real.log ((20999 : ℝ) / 20099) := by
    rw [hmain, hsum]
    ring
  refine ⟨?_, by rw [hdiff]; linarith⟩
  intro heq
  rw [heq, sub_self] at hdiff
  linarith

theorem Heap.read_allocArr_lt (h : Heap) (xs : List ℚ) (i : ℕ)
    (hi : i < h.arrays.length) : (h.allocArr xs).read i = h.read i := by
  unfold Heap.allocArr Heap.read
  exact List.getD_append _ _ _ _ hi

theorem Heap.read_write_ne (h : Heap) (i j : ℕ) (xs : List ℚ)
    (hij : i ≠ j) : (h.write j xs).read i = h.read i := by
  unfold Heap.write Heap.read
  rcases Nat.lt_or_ge i h.arrays.length with hi | hi
  · rw [List.getD_eq_getElem _ _ (by simpa using hi),
      List.getD_eq_getElem _ _ hi]
    exact List.getElem_set_ne (Ne.symm hij) _
  · rw [List.getD_eq_default _ _ (by simpa using hi),
      List.getD_eq_default _ _ hi]

theorem Heap.length_write (h : Heap) (j : ℕ) (xs : List ℚ) :
    (h.write j xs).arrays.length = h.arrays.length := by
  unfold Heap.write
  simp

theorem gaeLoopHeap_length (gamma lam : ℚ) (deltas nnt : List ℚ) (t : ℕ) :
    ∀ (h : Heap) (aIdx : ℕ) (last : ℚ),
      (gaeLoopHeap gamma lam deltas nnt t h aIdx last).arrays.length =
        h.arrays.length := by
  induction t with
  | zero => intro h aIdx last; rfl
  | succ t ih =>
      intro h aIdx last
      simp only [gaeLoopHeap]
      rw [ih]
      exact Heap.length_write _ _ _

theorem gaeLoopHeap_read_ne (gamma lam : ℚ) (deltas nnt : List ℚ) (t : ℕ) :
    ∀ (h : Heap) (aIdx : ℕ) (last : ℚ) (i : ℕ), i ≠ aIdx →
      (gaeLoopHeap gamma lam deltas nnt t h aIdx last).read i = h.read i := by
  induction t with
  | zero => intro h aIdx last i _; rfl
  | succ t ih =>
      intro h aIdx last i hne
      simp only [gaeLoopHeap]
      rw [ih _ _ _ _ hne]
      exact Heap.read_write_ne _ _ _ _ hne

/-- C10: `compute_gae` never mutates its argument arrays — after the
call the rewards, values and dones arrays hold exactly their old
contents — and the advantages and returns it yields live in freshly
allocated cells (at or beyond the old heap end, distinct from each
other and hence from every input array). -/
theorem compute_gae_heap_frame (h : Heap) (rIdx vIdx dIdx : ℕ)
    (lv : ℚ) (ld : Bool) (gamma lam : ℚ)
    (hr : rIdx < h.arrays.length) (hv : vIdx < h.arrays.length)
    (hd : dIdx < h.arrays.length) :
    ((compute_gae_heap h rIdx vIdx dIdx lv ld gamma lam).1.read rIdx =
      h.read rIdx) ∧
    ((compute_gae_heap h rIdx vIdx dIdx lv ld gamma lam).1.read vIdx =
      h.read vIdx) ∧
    ((compute_gae_heap h rIdx vIdx dIdx lv ld gamma lam).1.read dIdx =
      h.read dIdx) ∧
    (h.arrays.length ≤ (compute_gae_heap h rIdx vIdx dIdx lv ld gamma lam).2.1) ∧
    (h.arrays.length ≤ (compute_gae_heap h rIdx vIdx dIdx lv ld gamma lam).2.2) ∧
    ((compute_gae_heap h rIdx vIdx dIdx lv ld gamma lam).2.1 ≠
      (compute_gae_heap h rIdx vIdx dIdx lv ld gamma lam).2.2) := by
  have hread : ∀ i, i < h.arrays.length →
      (compute_gae_heap h rIdx vIdx dIdx lv ld gamma lam).1.read i =
        h.read i := by
    intro i hi
    show ((gaeLoopHeap gamma lam _ _ (h.read rIdx).length
        (h.allocArr (List.replicate (h.read rIdx).length 0))
        h.arrays.length 0).allocArr _).read i = h.read i
    rw [Heap.read_allocArr_lt _ _ _ (by
      rw [gaeLoopHeap_length]
      unfold Heap.allocArr
      simp
      omega)]
    rw [gaeLoopHeap_read_ne _ _ _ _ _ _ _ _ _ (by omega)]
    exact Heap.read_allocArr_lt _ _ _ hi
  have haIdx : (compute_gae_heap h rIdx vIdx dIdx lv ld gamma lam).2.1 =
      h.arrays.length := rfl
  have hretIdx : (compute_gae_heap h rIdx vIdx dIdx lv ld gamma lam).2.2 =
      h.arrays.length + 1 := by
    show (gaeLoopHeap gamma lam _ _ (h.read rIdx).length
        (h.allocArr (List.replicate (h.read rIdx).length 0))
        h.arrays.length 0).arrays.length = h.arrays.length + 1
    rw [gaeLoopHeap_length]
    unfold Heap.allocArr
    simp
  refine ⟨hread rIdx hr, hread vIdx hv, hread dIdx hd, ?_, ?_, ?_⟩
  · rw [haIdx]
  · rw [hretIdx]; omega
  · rw [haIdx, hretIdx]; omega

/-- Witness for C10 on a concrete three-array heap. -/
theorem compute_gae_heap_frame_witness :
    ((compute_gae_heap ⟨[[1, 2], [3, 4], [0, 1]]⟩ 0 1 2 5 false (1/2) (1/3)).1.read 0 =
      Heap.read ⟨[[1, 2], [3, 4], [0, 1]]⟩ 0) ∧
    ((compute_gae_heap ⟨[[1, 2], [3, 4], [0, 1]]⟩ 0 1 2 5 false (1/2) (1/3)).1.read 1 =
      Heap.read ⟨[[1, 2], [3, 4], [0, 1]]⟩ 1) ∧
    ((compute_gae_heap ⟨[[1, 2], [3, 4], [0, 1]]⟩ 0 1 2 5 false (1/2) (1/3)).1.read 2 =
      Heap.read ⟨[[1, 2], [3, 4], [0, 1]]⟩ 2) ∧
    ((compute_gae_heap ⟨[[1, 2], [3, 4], [0, 1]]⟩ 0 1 2 5 false (1/2) (1/3)).2.1 ≠
      (compute_gae_heap ⟨[[1, 2], [3, 4], [0, 1]]⟩ 0 1 2 5 false (1/2) (1/3)).2.2) := by
  obtain ⟨h1, h2, h3, _, _, h6⟩ :=
    compute_gae_heap_frame ⟨[[1, 2], [3, 4], [0, 1]]⟩ 0 1 2 5 false (1/2) (1/3)
      (by decide) (by decide) (by decide)
  exact ⟨h1, h2, h3, h6⟩

/-- Witness for C9: a trajectory with one mid-trajectory done flag, and
a trajectory with no done flag (which records nothing). -/
theorem episode_stats_are_done_segments_witness :
    (episodeStats [((1 : ℚ), false), (2, true), (3, false)] =
      (specDoneSegments [((1 : ℚ), false), (2, true), (3, false)]).map
        specSegmentStat) ∧
    (episodeStats [((1 : ℚ), false)] = []) := by
  obtain ⟨h1, _, _⟩ :=
    episode_stats_are_done_segments [((1 : ℚ), false), (2, true), (3, false)] []
  obtain ⟨_, h2, _⟩ := episode_stats_are_done_segments [((1 : ℚ), false)] []
  exact ⟨h1, h2 (by decide)⟩

end PPO
